import Mathlib

/-!
Verification of the wrappy container core: manifest validation, semantic
versions, dependency compatibility and circular-dependency detection,
embedded from the live `features/` implementation of the repository
(`features/version/mod.rs`, `features/manifest/mod.rs`,
`features/container/service.rs`).

Rust strings are modelled as lists of characters, `HashMap`s as
association lists (unique keys, first-match lookup), timestamps as
opaque naturals supplied by the caller, and the recursive
circular-dependency walk as a fuel-indexed function together with a
theorem that the fuel bound is never reached.
-/

namespace Wrappy

/-- Rust `String` modelled as a list of characters. -/
abbrev Str := List Char

/-- ASCII digit test on a character, via its code point. -/
def isDigitB (c : Char) : Bool := 48 ≤ c.toNat && c.toNat ≤ 57

/-- Numeric value of an ASCII digit character. -/
def digitVal (c : Char) : Nat := c.toNat - 48

/-- The ASCII digit character for a digit value below ten. -/
def digitChar (n : Nat) : Char :=
  match n with
  | 0 => '0' | 1 => '1' | 2 => '2' | 3 => '3' | 4 => '4'
  | 5 => '5' | 6 => '6' | 7 => '7' | 8 => '8' | _ => '9'

/-- Fuel-indexed digit expansion; structural in the fuel so that it
evaluates by kernel reduction. -/
def natDigitsF : Nat → Nat → Str
  | 0, _ => []
  | fuel + 1, n =>
    if n < 10 then [digitChar n]
    else natDigitsF fuel (n / 10) ++ [digitChar (n % 10)]

/-- Canonical decimal digits of a natural number, most significant first;
models the output of Rust's `Display` for unsigned integers.  Fuel
`n + 1` always suffices (see the unfolding lemma below). -/
def natDigits (n : Nat) : Str := natDigitsF (n + 1) n

/-- Value of a digit string read left to right in base ten. -/
def digitsVal (l : Str) : Nat := l.foldl (fun a c => a * 10 + digitVal c) 0

/-- Model of Rust `str::parse::<u32>()`: an optional leading plus sign,
then one or more ASCII digits, rejected when the value does not fit in
thirty-two bits. -/
def parseU32 (s : Str) : Option Nat :=
  let t : Str := match s with
    | [] => []
    | c :: r => if c = '+' then r else c :: r
  if t.isEmpty then none
  else if t.all isDigitB then
    if digitsVal t < 4294967296 then some (digitsVal t) else none
  else none

/-- Model of Rust `s.split('.')` on character lists. -/
def splitDot : Str → List Str
  | [] => [[]]
  | c :: rest =>
    if c = '.' then [] :: splitDot rest
    else
      match splitDot rest with
      | [] => [[c]]
      | p :: ps => (c :: p) :: ps

/-- Joins parts with a dot separator; inverse of `splitDot`. -/
def joinDot : List Str → Str
  | [] => []
  | [p] => p
  | p :: ps => p ++ '.' :: joinDot ps

/-- Model of Rust `Vec::join(" -> ")`, used for dependency chains. -/
def joinArrow : List Str → Str
  | [] => []
  | [p] => p
  | p :: ps => p ++ " -> ".data ++ joinArrow ps

/-- The error kinds of `shared/error.rs` reachable from the embedded
functions. -/
inductive ContainerError where
  | invalidStructure (msg : Str)
  | missingDefaultScript
  | scriptNotFound (container script : Str)
  | invalidManifest (msg : Str)
  | manifestValidation (msg : Str)
  | invalidDependency (package reason : Str)
  | packageNotFound (package : Str)
  | circularDependency (chain : Str)
  | invalidVersion (version : Str)
  | versionConflict (conflict : Str)
  deriving DecidableEq, Repr

/-- Matches one regex segment `(0|[1-9]\d*)` at the front of the input
and returns the remaining characters.  Greedy matching is exact here
because the segment is a maximal digit run followed by a non-digit. -/
def matchSeg : Str → Option Str
  | [] => none
  | c :: rest =>
    if c = '0' then some rest
    else if isDigitB c then some (rest.dropWhile isDigitB)
    else none

/-- Model of the anchored regex
`^(0|[1-9]\d*)\.(0|[1-9]\d*)\.(0|[1-9]\d*)$` of
`Version::validate_version_format`. -/
def semverMatch (l : Str) : Bool :=
  match matchSeg l with
  | some ('.' :: r1) =>
    match matchSeg r1 with
    | some ('.' :: r2) =>
      match matchSeg r2 with
      | some [] => true
      | _ => false
    | _ => false
  | _ => false

instance {ε α : Type} [DecidableEq ε] [DecidableEq α] : DecidableEq (Except ε α) := fun x y =>
  match x, y with
  | .ok a, .ok b =>
    if h : a = b then isTrue (by rw [h]) else isFalse (fun hc => h (by cases hc; rfl))
  | .error e, .error f =>
    if h : e = f then isTrue (by rw [h]) else isFalse (fun hc => h (by cases hc; rfl))
  | .ok _, .error _ => isFalse (fun hc => Except.noConfusion hc)
  | .error _, .ok _ => isFalse (fun hc => Except.noConfusion hc)

/-- The string-backed semantic version of `features/version/mod.rs`. -/
structure Version where
  version : Str
  deriving DecidableEq, Repr

/-- Model of `Version::validate_version_format`: the stored string must
match the semver regex, otherwise `InvalidVersion` carries it back. -/
def validate_version_format (version : Str) : Except ContainerError Unit :=
  if semverMatch version then .ok () else .error (.invalidVersion version)

/-- Model of `Version::validate`. -/
def Version.validate (v : Version) : Except ContainerError Unit :=
  validate_version_format v.version

/-- Model of `Version::new` (also `FromStr::from_str`): store the string,
validate it, and return the instance on success. -/
def Version.new (s : Str) : Except ContainerError Version :=
  match (Version.mk s).validate with
  | .ok _ => .ok (Version.mk s)
  | .error e => .error e

/-- The string `"{major}.{minor}.{patch}"` produced by Rust's format
machinery for a component triple. -/
def tripleStr (major minor patch : Nat) : Str :=
  natDigits major ++ '.' :: (natDigits minor ++ '.' :: natDigits patch)

/-- Model of `Version::from_parts`: format the components and delegate to
`Version::new`. -/
def Version.from_parts (major minor patch : Nat) : Except ContainerError Version :=
  Version.new (tripleStr major minor patch)

/-- Model of `Version::parse_components`: split on dots and parse each
part as a `u32`. -/
def Version.parse_components (v : Version) : Except ContainerError (Nat × Nat × Nat) :=
  match splitDot v.version with
  | [a, b, c] =>
    match parseU32 a, parseU32 b, parseU32 c with
    | some major, some minor, some patch => .ok (major, minor, patch)
    | _, _, _ => .error (.invalidVersion v.version)
  | _ => .error (.invalidVersion v.version)

/-- Lexicographic comparison of component triples; models the derived
`Ord` on Rust tuples of `u32`. -/
def tripleCmp (a b : Nat × Nat × Nat) : Ordering :=
  (compare a.1 b.1).then ((compare a.2.1 b.2.1).then (compare a.2.2 b.2.2))

/-- Rust `>=` on component triples. -/
def tripleGe (a b : Nat × Nat × Nat) : Bool :=
  match tripleCmp a b with
  | .lt => false
  | _ => true

/-- Model of `Version::is_compatible_with`: parse both sides into
components; on any parse failure the answer is `false`. -/
def Version.is_compatible_with (v other : Version) : Bool :=
  match v.parse_components, other.parse_components with
  | .ok s, .ok o => s.1 == o.1 && tripleGe s o
  | _, _ => false

/-- Model of the `Display` implementation: the stored string itself. -/
def Version.display (v : Version) : Str := v.version

/-- Spec-side description of one version segment: digits only, non-empty,
and no leading zero beyond the string `"0"` itself. -/
def specSegOk (l : Str) : Bool :=
  !l.isEmpty && l.all isDigitB && (l == ['0'] || l.head? != some '0')

/-- Spec-side description of an accepted version string: exactly three
dot-separated segments, each a canonical decimal integer. -/
def specVersionOk (s : Str) : Bool :=
  match splitDot s with
  | [a, b, c] => specSegOk a && specSegOk b && specSegOk c
  | _ => false

/-- Spec-side lexicographic order on component triples, written out as a
proposition. -/
def specTripleGe (a b : Nat × Nat × Nat) : Prop :=
  b.1 < a.1 ∨ (b.1 = a.1 ∧ (b.2.1 < a.2.1 ∨ (b.2.1 = a.2.1 ∧ b.2.2 ≤ a.2.2)))

instance (a b : Nat × Nat × Nat) : Decidable (specTripleGe a b) := by
  unfold specTripleGe
  infer_instance

/-- First-match lookup in an association list; models `HashMap::get`
(keys are unique in the Rust maps). -/
def lookupA {α : Type} (m : List (Str × α)) (k : Str) : Option α :=
  match m with
  | [] => none
  | (k', v) :: rest => if k' = k then some v else lookupA rest k

/-- Model of `HashMap::contains_key`. -/
def containsKey {α : Type} (m : List (Str × α)) (k : Str) : Bool :=
  (lookupA m k).isSome

/-- A dependency entry of a manifest (`features/manifest/mod.rs`). -/
structure Dependency where
  name : Str
  version : Str
  optional : Bool
  deriving DecidableEq, Repr

/-- Host-binding configuration; opaque to the validation core, kept only
so the manifest has the same fields as the source. -/
structure BindingsConfig where
  opaqueData : List Str
  deriving DecidableEq, Repr

/-- The manifest of `features/manifest/mod.rs`; `HashMap` fields are
association lists. -/
structure ContainerManifest where
  name : Str
  version : Version
  description : Str
  author : Str
  scripts : List (Str × Str)
  dependencies : List Dependency
  environment : List (Str × Str)
  bindings : BindingsConfig
  deriving DecidableEq, Repr

/-- Rust `char::is_alphanumeric` (restricted to the ASCII range of the
inputs exercised here) together with hyphen and underscore. -/
def isNameChar (c : Char) : Bool := c.isAlphanum || c = '-' || c = '_'

/-- First script entry with an empty path, in map iteration order. -/
def firstEmptyScript : List (Str × Str) → Option Str
  | [] => none
  | (name, path) :: rest => if path.isEmpty then some name else firstEmptyScript rest

/-- The dependency loop at the end of `ContainerManifest::validate`. -/
def validateDeps : List Dependency → Except ContainerError Unit
  | [] => .ok ()
  | d :: rest =>
    if d.name.isEmpty then
      .error (.invalidDependency [] "Dependency name cannot be empty".data)
    else if d.version.isEmpty then
      .error (.invalidDependency d.name "Dependency version cannot be empty".data)
    else
      match Version.new d.version with
      | .error _ =>
        .error (.invalidDependency d.name ("Invalid version format: ".data ++ d.version))
      | .ok _ => validateDeps rest

/-- Model of `ContainerManifest::validate`, with the checks in source
order and short-circuiting on the first failure. -/
def ContainerManifest.validate (m : ContainerManifest) : Except ContainerError Unit :=
  if m.name.isEmpty then
    .error (.manifestValidation "Container name cannot be empty".data)
  else if !(m.name.all isNameChar) then
    .error (.manifestValidation
      "Container name can only contain alphanumeric characters, hyphens, and underscores".data)
  else
    match m.version.validate with
    | .error e => .error e
    | .ok _ =>
      if !(containsKey m.scripts "default".data) then
        .error .missingDefaultScript
      else
        match firstEmptyScript m.scripts with
        | some name =>
          .error (.manifestValidation ("Script \x27".data ++ name ++ "\x27 has empty path".data))
        | none => validateDeps m.dependencies

/-- Container lifecycle states. -/
inductive ContainerStatus where
  | ready | running | stopped | error | installing | removing
  deriving DecidableEq, Repr

/-- Runtime state of a container; identifiers and timestamps are opaque
naturals. -/
structure ContainerRuntime where
  id : Nat
  status : ContainerStatus
  pid : Option Nat
  started_at : Option Nat
  stopped_at : Option Nat
  exit_code : Option Int
  errors : List Str
  deriving DecidableEq, Repr

/-- The container aggregate of `features/container/service.rs`. -/
structure Container where
  manifest : ContainerManifest
  path : Str
  runtime : ContainerRuntime
  installed_at : Nat
  last_accessed : Nat
  deriving DecidableEq, Repr

/-- Model of `Container::mark_stopped`; the current wall-clock time is an
explicit argument. -/
def Container.mark_stopped (c : Container) (exit_code : Int) (now : Nat) : Container :=
  { c with runtime := { c.runtime with
      status := .stopped
      pid := none
      stopped_at := some now
      exit_code := some exit_code } }

/-- The human-readable message carried by `VersionConflict`. -/
def conflictMsg (package : Str) (found required : Version) : Str :=
  "Package \x27".data ++ package ++ "\x27 version ".data ++ found.display ++
    " is not compatible with required version ".data ++ required.display

/-- Model of `ContainerService::validate_single_dependency`. -/
def validate_single_dependency (dep : Dependency) (available : List (Str × Version)) :
    Except ContainerError Unit :=
  match lookupA available dep.name with
  | none => .error (.packageNotFound dep.name)
  | some package_version =>
    match Version.new dep.version with
    | .error e => .error e
    | .ok required_version =>
      if package_version.is_compatible_with required_version then .ok ()
      else .error (.versionConflict (conflictMsg dep.name package_version required_version))

/-- The dependency loop of `ContainerService::validate_dependencies`. -/
def validateDepsAvail (deps : List Dependency) (available : List (Str × Version)) :
    Except ContainerError Unit :=
  match deps with
  | [] => .ok ()
  | d :: rest =>
    match validate_single_dependency d available with
    | .ok _ => validateDepsAvail rest available
    | .error e => .error e

/-- Model of `ContainerService::validate_dependencies`. -/
def validate_dependencies (c : Container) (available : List (Str × Version)) :
    Except ContainerError Unit :=
  validateDepsAvail c.manifest.dependencies available

/-- The dependency names declared by a container. -/
def depNames (c : Container) : List Str := c.manifest.dependencies.map (fun d => d.name)

/-- A registry of containers keyed by name. -/
abbrev Registry := List (Str × Container)

/-- Outcome of the circular-dependency walk: success or failure, each
carrying the final state of the mutable `visited` vector, or fuel
exhaustion (shown unreachable below). -/
inductive CircOutcome where
  | ok (visited : List Str)
  | err (e : ContainerError) (visited : List Str)
  | outOfFuel
  deriving DecidableEq, Repr

/-- The dependency loop inside `check_circular_dependencies`: run `next`
on each name in turn, threading the visited vector, short-circuiting on
the first failure exactly as the `?` operator does. -/
def checkDeps (next : List Str → Str → CircOutcome) :
    List Str → List Str → CircOutcome
  | visited, [] => .ok visited
  | visited, d :: rest =>
    match next visited d with
    | .ok v => checkDeps next v rest
    | r => r

/-- Fuel-indexed model of `ContainerService::check_circular_dependencies`.
Each recursive descent consumes one unit of fuel; everything else is a
direct transcription: fail if `current` is already on the stack, skip
silently if it is unregistered, otherwise push, recurse into each
dependency, and pop only on the success path (the source returns early
through `?` on failure, skipping the pop). -/
def checkCircular (reg : Registry) : Nat → List Str → Str → CircOutcome
  | 0, _, _ => .outOfFuel
  | fuel + 1, visited, current =>
    if current ∈ visited then
      .err (.circularDependency (joinArrow visited)) visited
    else
      match lookupA reg current with
      | none => .ok visited
      | some c =>
        match checkDeps (fun v d => checkCircular reg fuel v d)
            (visited ++ [current]) (depNames c) with
        | .ok v => .ok v.dropLast
        | r => r

/-- Number of distinct registry keys; bounds the depth of the walk. -/
def numKeys (reg : Registry) : Nat := (reg.map Prod.fst).toFinset.card

/-- The circular-dependency check itself: the fuel bound `numKeys + 1`
is never reached (see the fuel theorems below), so this is the total
function computed by the recursive Rust source. -/
def check_circular_dependencies (reg : Registry) (visited : List Str) (current : Str) :
    CircOutcome :=
  checkCircular reg (numKeys reg + 1) visited current

/-- Dependency edge of the registry graph: `u` resolves to a registered
container that declares `v` among its dependency names. -/
def depEdge (reg : Registry) (u v : Str) : Prop :=
  ∃ c, lookupA reg u = some c ∧ v ∈ depNames c

/-- A cycle of registry edges is reachable from `start`. -/
def cycleReachable (reg : Registry) (start : Str) : Prop :=
  ∃ u, Relation.ReflTransGen (depEdge reg) start u ∧ Relation.TransGen (depEdge reg) u u

/-- A default runtime as produced by `ContainerRuntime::default` (the
fresh identifier is fixed to zero; claims never inspect it). -/
def defaultRuntime : ContainerRuntime :=
  { id := 0, status := .ready, pid := none, started_at := none,
    stopped_at := none, exit_code := none, errors := [] }

/-- A manifest with the given name and dependency names, a valid version
and the default script entry; used for concrete registries. -/
def mkManifest (name : Str) (deps : List Str) : ContainerManifest :=
  { name := name
    version := Version.mk "1.0.0".data
    description := []
    author := []
    scripts := [("default".data, "scripts/default.sh".data)]
    dependencies := deps.map (fun n => { name := n, version := "1.0.0".data, optional := false })
    environment := []
    bindings := BindingsConfig.mk [] }

/-- A container with the given name and dependency names. -/
def mkContainer (name : Str) (deps : List Str) : Container :=
  { manifest := mkManifest name deps
    path := []
    runtime := defaultRuntime
    installed_at := 0
    last_accessed := 0 }

/-- Two containers depending on each other. -/
def regAB : Registry :=
  [("A".data, mkContainer "A".data ["B".data]),
   ("B".data, mkContainer "B".data ["A".data])]

/-- A diamond-shaped, cycle-free registry. -/
def regDiamond : Registry :=
  [("A".data, mkContainer "A".data ["B".data, "C".data]),
   ("B".data, mkContainer "B".data ["D".data]),
   ("C".data, mkContainer "C".data ["D".data]),
   ("D".data, mkContainer "D".data [])]

/-! ### Lemmas about the circular-dependency walk -/

theorem checkDeps_ok_eq (next : List Str → Str → CircOutcome)
    (hnext : ∀ u d w, next u d = .ok w → w = u) :
    ∀ ds visited w, checkDeps next visited ds = .ok w → w = visited := by
  intro ds
  induction ds with
  | nil =>
    intro visited w h
    simp [checkDeps] at h
    exact h.symm
  | cons d rest ih =>
    intro visited w h
    rw [checkDeps] at h
    cases hnd : next visited d with
    | ok v =>
      rw [hnd] at h
      have hv := hnext _ _ _ hnd
      have hw := ih v w h
      exact hw.trans hv
    | err e vv => rw [hnd] at h; cases h
    | outOfFuel => rw [hnd] at h; cases h

theorem checkDeps_ok_each (next : List Str → Str → CircOutcome)
    (hnext : ∀ u d w, next u d = .ok w → w = u) :
    ∀ ds visited w, checkDeps next visited ds = .ok w →
      ∀ d ∈ ds, next visited d = .ok visited := by
  intro ds
  induction ds with
  | nil => intro visited w _ d hd; cases hd
  | cons d0 rest ih =>
    intro visited w h d hd
    rw [checkDeps] at h
    cases hnd : next visited d0 with
    | ok v =>
      rw [hnd] at h
      have hv := hnext _ _ _ hnd
      subst hv
      rcases List.mem_cons.mp hd with rfl | hmem
      · exact hnd
      · exact ih _ _ h d hmem
    | err e vv => rw [hnd] at h; cases h
    | outOfFuel => rw [hnd] at h; cases h

theorem checkDeps_err_mem (next : List Str → Str → CircOutcome)
    (hnext : ∀ u d w, next u d = .ok w → w = u) :
    ∀ ds visited e w, checkDeps next visited ds = .err e w →
      ∃ d ∈ ds, next visited d = .err e w := by
  intro ds
  induction ds with
  | nil => intro visited e w h; simp [checkDeps] at h
  | cons d0 rest ih =>
    intro visited e w h
    rw [checkDeps] at h
    cases hnd : next visited d0 with
    | ok v =>
      rw [hnd] at h
      have hv := hnext _ _ _ hnd
      subst hv
      obtain ⟨d, hd, hcall⟩ := ih _ _ _ h
      exact ⟨d, List.mem_cons_of_mem _ hd, hcall⟩
    | err e' vv =>
      rw [hnd] at h
      cases h
      exact ⟨d0, List.mem_cons_self _ _, hnd⟩
    | outOfFuel => rw [hnd] at h; cases h

theorem checkDeps_oof_mem (next : List Str → Str → CircOutcome)
    (hnext : ∀ u d w, next u d = .ok w → w = u) :
    ∀ ds visited, checkDeps next visited ds = .outOfFuel →
      ∃ d ∈ ds, next visited d = .outOfFuel := by
  intro ds
  induction ds with
  | nil => intro visited h; simp [checkDeps] at h
  | cons d0 rest ih =>
    intro visited h
    rw [checkDeps] at h
    cases hnd : next visited d0 with
    | ok v =>
      rw [hnd] at h
      have hv := hnext _ _ _ hnd
      subst hv
      obtain ⟨d, hd, hcall⟩ := ih _ h
      exact ⟨d, List.mem_cons_of_mem _ hd, hcall⟩
    | err e' vv => rw [hnd] at h; cases h
    | outOfFuel => exact ⟨d0, List.mem_cons_self _ _, hnd⟩

theorem checkCircular_ok_eq (reg : Registry) :
    ∀ fuel visited current w,
      checkCircular reg fuel visited current = .ok w → w = visited := by
  intro fuel
  induction fuel with
  | zero => intro visited current w h; cases h
  | succ f ih =>
    intro visited current w h
    rw [checkCircular] at h
    by_cases hmem : current ∈ visited
    · rw [if_pos hmem] at h; cases h
    · rw [if_neg hmem] at h
      cases hlk : lookupA reg current with
      | none => rw [hlk] at h; cases h; rfl
      | some c =>
        rw [hlk] at h
        dsimp only at h
        cases hcd : checkDeps (fun v d => checkCircular reg f v d)
            (visited ++ [current]) (depNames c) with
        | ok v =>
          rw [hcd] at h
          cases h
          have hv := checkDeps_ok_eq _ (fun u d w h => ih u d w h) _ _ _ hcd
          rw [hv, List.dropLast_concat]
        | err e vv => rw [hcd] at h; cases h
        | outOfFuel => rw [hcd] at h; cases h

theorem checkCircular_err_kind (reg : Registry) :
    ∀ fuel visited current e w,
      checkCircular reg fuel visited current = .err e w →
      ∃ ch, e = .circularDependency ch := by
  intro fuel
  induction fuel with
  | zero => intro visited current e w h; cases h
  | succ f ih =>
    intro visited current e w h
    rw [checkCircular] at h
    by_cases hmem : current ∈ visited
    · rw [if_pos hmem] at h
      cases h
      exact ⟨joinArrow visited, rfl⟩
    · rw [if_neg hmem] at h
      cases hlk : lookupA reg current with
      | none => rw [hlk] at h; cases h
      | some c =>
        rw [hlk] at h
        dsimp only at h
        cases hcd : checkDeps (fun v d => checkCircular reg f v d)
            (visited ++ [current]) (depNames c) with
        | ok v => rw [hcd] at h; cases h
        | err e' vv =>
          rw [hcd] at h
          cases h
          obtain ⟨d, _, hcall⟩ := checkDeps_err_mem _
            (fun u d w hh => checkCircular_ok_eq reg f u d w hh) _ _ _ _ hcd
          exact ih _ _ _ _ hcall
        | outOfFuel => rw [hcd] at h; cases h

theorem checkCircular_err_prefix (reg : Registry) :
    ∀ fuel visited current e w,
      checkCircular reg fuel visited current = .err e w →
      visited <+: w := by
  intro fuel
  induction fuel with
  | zero => intro visited current e w h; cases h
  | succ f ih =>
    intro visited current e w h
    rw [checkCircular] at h
    by_cases hmem : current ∈ visited
    · rw [if_pos hmem] at h
      cases h
      exact List.prefix_refl _
    · rw [if_neg hmem] at h
      cases hlk : lookupA reg current with
      | none => rw [hlk] at h; cases h
      | some c =>
        rw [hlk] at h
        dsimp only at h
        cases hcd : checkDeps (fun v d => checkCircular reg f v d)
            (visited ++ [current]) (depNames c) with
        | ok v => rw [hcd] at h; cases h
        | err e' vv =>
          rw [hcd] at h
          cases h
          obtain ⟨d, _, hcall⟩ := checkDeps_err_mem _
            (fun u d w hh => checkCircular_ok_eq reg f u d w hh) _ _ _ _ hcd
          exact (List.prefix_append _ _).trans (ih _ _ _ _ hcall)
        | outOfFuel => rw [hcd] at h; cases h

theorem checkCircular_err_cycle (reg : Registry) (start : Str) :
    ∀ fuel visited current e w,
      (∀ x ∈ visited, Relation.TransGen (depEdge reg) x current) →
      Relation.ReflTransGen (depEdge reg) start current →
      checkCircular reg fuel visited current = .err e w →
      cycleReachable reg start := by
  intro fuel
  induction fuel with
  | zero => intro visited current e w _ _ h; cases h
  | succ f ih =>
    intro visited current e w hv hs h
    rw [checkCircular] at h
    by_cases hmem : current ∈ visited
    · exact ⟨current, hs, hv current hmem⟩
    · rw [if_neg hmem] at h
      cases hlk : lookupA reg current with
      | none => rw [hlk] at h; cases h
      | some c =>
        rw [hlk] at h
        dsimp only at h
        cases hcd : checkDeps (fun v d => checkCircular reg f v d)
            (visited ++ [current]) (depNames c) with
        | ok v => rw [hcd] at h; cases h
        | err e' vv =>
          obtain ⟨d, hd, hcall⟩ := checkDeps_err_mem _
            (fun u d w hh => checkCircular_ok_eq reg f u d w hh) _ _ _ _ hcd
          have hedge : depEdge reg current d := ⟨c, hlk, hd⟩
          refine ih (visited ++ [current]) d e' vv ?_ (hs.tail hedge) hcall
          intro x hx
          rcases List.mem_append.mp hx with hxv | hxc
          · exact (hv x hxv).tail hedge
          · rcases List.mem_singleton.mp hxc with rfl
            exact Relation.TransGen.single hedge
        | outOfFuel => rw [hcd] at h; cases h

theorem checkCircular_ok_sound (reg : Registry) :
    ∀ fuel visited current w,
      checkCircular reg fuel visited current = .ok w →
      ∀ u, Relation.ReflTransGen (depEdge reg) current u →
        u ∉ visited ∧ ¬ Relation.TransGen (depEdge reg) u u := by
  intro fuel
  induction fuel with
  | zero => intro visited current w h; cases h
  | succ f ih =>
    intro visited current w h u hru
    rw [checkCircular] at h
    by_cases hmem : current ∈ visited
    · rw [if_pos hmem] at h; cases h
    · rw [if_neg hmem] at h
      cases hlk : lookupA reg current with
      | none =>
        rcases hru.cases_head with rfl | ⟨x, hx, _⟩
        · refine ⟨hmem, fun htg => ?_⟩
          obtain ⟨y, hy, _⟩ := Relation.TransGen.head'_iff.mp htg
          obtain ⟨c, hlk', _⟩ := hy
          rw [hlk] at hlk'
          cases hlk'
        · obtain ⟨c, hlk', _⟩ := hx
          rw [hlk] at hlk'
          cases hlk'
      | some c =>
        rw [hlk] at h
        dsimp only at h
        cases hcd : checkDeps (fun v d => checkCircular reg f v d)
            (visited ++ [current]) (depNames c) with
        | ok v =>
          have heach := checkDeps_ok_each _
            (fun u d w hh => checkCircular_ok_eq reg f u d w hh) _ _ _ hcd
          rcases hru.cases_head with rfl | ⟨x, hx, hrxu⟩
          · refine ⟨hmem, fun htg => ?_⟩
            obtain ⟨x, hx, hrx⟩ := Relation.TransGen.head'_iff.mp htg
            obtain ⟨c', hlk', hxdep⟩ := hx
            rw [hlk] at hlk'
            cases hlk'
            have hsound := ih _ _ _ (heach x hxdep) current hrx
            exact hsound.1 (List.mem_append_right _ (List.mem_singleton_self _))
          · obtain ⟨c', hlk', hxdep⟩ := hx
            rw [hlk] at hlk'
            cases hlk'
            have hsound := ih _ _ _ (heach x hxdep) u hrxu
            exact ⟨fun hu => hsound.1 (List.mem_append_left _ hu), hsound.2⟩
        | err e' vv => rw [hcd] at h; cases h
        | outOfFuel => rw [hcd] at h; cases h

/-- Registry keys not yet on the visited stack; the size of this set
strictly decreases at every push. -/
def freeCard (reg : Registry) (visited : List Str) : Nat :=
  ((reg.map Prod.fst).toFinset.filter (fun k => k ∉ visited)).card

theorem lookupA_mem {α : Type} :
    ∀ (m : List (Str × α)) (k : Str) (v : α),
      lookupA m k = some v → k ∈ m.map Prod.fst := by
  intro m
  induction m with
  | nil => intro k v h; cases h
  | cons p rest ih =>
    intro k v h
    rw [lookupA] at h
    by_cases hk : p.1 = k
    · exact List.mem_map.mpr ⟨p, List.mem_cons_self _ _, hk⟩
    · rw [if_neg hk] at h
      exact List.mem_cons_of_mem _ (ih k v h)

theorem freeCard_concat_lt (reg : Registry) (visited : List Str) (current : Str)
    (c : Container) (hlk : lookupA reg current = some c) (hmem : current ∉ visited) :
    freeCard reg (visited ++ [current]) < freeCard reg visited := by
  have hkey : current ∈ (reg.map Prod.fst).toFinset :=
    List.mem_toFinset.mpr (lookupA_mem reg current c hlk)
  apply Finset.card_lt_card
  have hsub : (reg.map Prod.fst).toFinset.filter (fun k => k ∉ visited ++ [current]) ⊆
      (reg.map Prod.fst).toFinset.filter (fun k => k ∉ visited) := by
    intro x hx
    simp only [Finset.mem_filter] at hx ⊢
    exact ⟨hx.1, fun hv => hx.2 (List.mem_append_left _ hv)⟩
  rw [Finset.ssubset_iff_of_subset hsub]
  refine ⟨current, Finset.mem_filter.mpr ⟨hkey, hmem⟩, fun hcontra => ?_⟩
  exact (Finset.mem_filter.mp hcontra).2
    (List.mem_append_right _ (List.mem_singleton_self _))

theorem freeCard_le_numKeys (reg : Registry) (visited : List Str) :
    freeCard reg visited ≤ numKeys reg :=
  Finset.card_filter_le _ _

theorem checkCircular_no_fuel_exhaustion (reg : Registry) :
    ∀ fuel visited current, freeCard reg visited < fuel →
      checkCircular reg fuel visited current ≠ .outOfFuel := by
  intro fuel
  induction fuel with
  | zero => intro visited current hf; omega
  | succ f ih =>
    intro visited current hf h
    rw [checkCircular] at h
    by_cases hmem : current ∈ visited
    · rw [if_pos hmem] at h; cases h
    · rw [if_neg hmem] at h
      cases hlk : lookupA reg current with
      | none => rw [hlk] at h; cases h
      | some c =>
        rw [hlk] at h
        dsimp only at h
        cases hcd : checkDeps (fun v d => checkCircular reg f v d)
            (visited ++ [current]) (depNames c) with
        | ok v => rw [hcd] at h; cases h
        | err e' vv => rw [hcd] at h; cases h
        | outOfFuel =>
          obtain ⟨d, _, hcall⟩ := checkDeps_oof_mem _
            (fun u d w hh => checkCircular_ok_eq reg f u d w hh) _ _ hcd
          have hlt := freeCard_concat_lt reg visited current c hlk hmem
          exact ih (visited ++ [current]) d (by omega) hcall

/-! ### Claims about the circular-dependency check -/

/-- C1: starting from an empty path, `check_circular_dependencies` fails
with `CircularDependency` exactly when the registry graph has a cycle
reachable from the start name; unregistered names are skipped silently;
the mutual registry `{A -> B, B -> A}` fails from `A` with chain
`"A -> B"`, and the diamond registry succeeds. -/
theorem C1_cycle_detection :
    (∀ (reg : Registry) (current : Str),
      (∃ ch w, check_circular_dependencies reg [] current =
          .err (.circularDependency ch) w) ↔ cycleReachable reg current)
    ∧ check_circular_dependencies regAB [] "A".data =
        .err (.circularDependency "A -> B".data) ["A".data, "B".data]
    ∧ check_circular_dependencies regDiamond [] "A".data = .ok []
    ∧ (∀ (reg : Registry) (visited : List Str) (current : Str),
        lookupA reg current = none → current ∉ visited →
        check_circular_dependencies reg visited current = .ok visited) := by
  refine ⟨?_, by decide, by decide, ?_⟩
  · intro reg current
    constructor
    · rintro ⟨ch, w, h⟩
      exact checkCircular_err_cycle reg current _ [] current _ _
        (by intro x hx; cases hx) Relation.ReflTransGen.refl h
    · intro hcyc
      cases houtcome : check_circular_dependencies reg [] current with
      | ok w =>
        exfalso
        obtain ⟨u, hru, htg⟩ := hcyc
        exact (checkCircular_ok_sound reg _ [] current w houtcome u hru).2 htg
      | err e w =>
        obtain ⟨ch, rfl⟩ := checkCircular_err_kind reg _ [] current e w houtcome
        exact ⟨ch, w, rfl⟩
      | outOfFuel =>
        exact absurd houtcome (checkCircular_no_fuel_exhaustion reg _ [] current
          (Nat.lt_succ_of_le (freeCard_le_numKeys reg [])))
  · intro reg visited current hlk hmem
    show checkCircular reg (numKeys reg + 1) visited current = .ok visited
    rw [checkCircular, if_neg hmem, hlk]

/-- Witness for C1 at a concrete input: the name `C` is not registered in
`regAB`, so the walk skips it silently. -/
theorem C1_cycle_detection_witness :
    lookupA regAB "C".data = none ∧ "C".data ∉ ([] : List Str) ∧
      check_circular_dependencies regAB [] "C".data = .ok [] :=
  ⟨by decide, by decide, C1_cycle_detection.2.2.2 regAB [] "C".data (by decide) (by decide)⟩

/-- C3 counterexample: on the mutually dependent registry the failing
call returns with the path holding the two pushed names, not its empty
pre-call value — the source pops only on the success path. -/
theorem C3_path_not_restored_on_failure :
    check_circular_dependencies regAB [] "A".data =
      .err (.circularDependency "A -> B".data) ["A".data, "B".data] ∧
    (["A".data, "B".data] : List Str) ≠ [] := by
  exact ⟨by decide, by decide⟩

/-- C3 amended: the path is restored to its pre-call value whenever the
call returns successfully; when a `CircularDependency` failure
propagates, the pre-call path is a prefix of the final path — the names
pushed by the active frames are never popped. -/
theorem C3_path_restoration :
    (∀ (reg : Registry) (visited : List Str) (current : Str) (w : List Str),
      check_circular_dependencies reg visited current = .ok w → w = visited)
    ∧ (∀ (reg : Registry) (visited : List Str) (current : Str)
        (e : ContainerError) (w : List Str),
        check_circular_dependencies reg visited current = .err e w → visited <+: w) :=
  ⟨fun reg visited current w h => checkCircular_ok_eq reg _ visited current w h,
   fun reg visited current e w h => checkCircular_err_prefix reg _ visited current e w h⟩

/-- Witness for C3 at concrete inputs: a successful diamond walk hands
back the empty path, and the failing mutual walk extends it. -/
theorem C3_path_restoration_witness :
    ([] : List Str) = [] ∧ ([] : List Str) <+: ["A".data, "B".data] :=
  ⟨C3_path_restoration.1 regDiamond [] "A".data [] (by decide),
   C3_path_restoration.2 regAB [] "A".data
     (.circularDependency "A -> B".data) ["A".data, "B".data] (by decide)⟩

/-- C10: the walk terminates on every input — with fuel one larger than
the number of registered names the fuel bound is never reached, because
only distinct registered names are pushed onto the path. -/
theorem C10_termination (reg : Registry) (visited : List Str) (current : Str) :
    check_circular_dependencies reg visited current ≠ .outOfFuel :=
  checkCircular_no_fuel_exhaustion reg _ visited current
    (Nat.lt_succ_of_le (freeCard_le_numKeys reg visited))

/-- Witness for C10 at a concrete input. -/
theorem C10_termination_witness :
    check_circular_dependencies regAB [] "A".data ≠ .outOfFuel :=
  C10_termination regAB [] "A".data

/-! ### String and regex lemmas for version parsing -/

theorem dropWhile_append_of_all (p : Char → Bool) :
    ∀ (t r : Str), (∀ x ∈ t, p x = true) → (t ++ r).dropWhile p = r.dropWhile p := by
  intro t
  induction t with
  | nil => intro r _; rfl
  | cons c t' ih =>
    intro r h
    rw [List.cons_append, List.dropWhile_cons,
      if_pos (h c (List.mem_cons_self _ _)), ih r (fun x hx => h x (List.mem_cons_of_mem _ hx))]

theorem dropWhile_of_head_false (p : Char → Bool) :
    ∀ r : Str, (∀ c rs, r = c :: rs → p c = false) → r.dropWhile p = r := by
  intro r h
  cases r with
  | nil => rfl
  | cons c rs => rw [List.dropWhile_cons, if_neg (by rw [h c rs rfl]; exact Bool.false_ne_true)]

theorem specSegOk_all_digits {a : Str} (h : specSegOk a = true) :
    ∀ x ∈ a, isDigitB x = true := by
  rw [specSegOk, Bool.and_eq_true, Bool.and_eq_true] at h
  exact fun x hx => List.all_eq_true.mp h.1.2 x hx

theorem specSegOk_ne_nil {a : Str} (h : specSegOk a = true) : a ≠ [] := by
  rw [specSegOk, Bool.and_eq_true, Bool.and_eq_true] at h
  intro hnil
  rw [hnil] at h
  exact Bool.false_ne_true h.1.1

theorem specSegOk_no_dot {a : Str} (h : specSegOk a = true) : '.' ∉ a := by
  intro hmem
  have := specSegOk_all_digits h '.' hmem
  simp [isDigitB] at this

theorem splitDot_no_dot : ∀ l : Str, '.' ∉ l → splitDot l = [l] := by
  intro l
  induction l with
  | nil => intro _; rfl
  | cons c rest ih =>
    intro h
    have hc : ¬(c = '.') := fun hc => h (hc ▸ List.mem_cons_self _ _)
    rw [splitDot, if_neg hc, ih (fun hm => h (List.mem_cons_of_mem _ hm))]

theorem splitDot_append_dot : ∀ (a r : Str), '.' ∉ a →
    splitDot (a ++ '.' :: r) = a :: splitDot r := by
  intro a
  induction a with
  | nil => intro r _; rw [List.nil_append, splitDot, if_pos rfl]
  | cons c a' ih =>
    intro r h
    have hc : ¬(c = '.') := fun hc => h (hc ▸ List.mem_cons_self _ _)
    rw [List.cons_append, splitDot, if_neg hc, ih r (fun hm => h (List.mem_cons_of_mem _ hm))]

theorem splitDot_ne_nil : ∀ l : Str, splitDot l ≠ [] := by
  intro l
  cases l with
  | nil => simp [splitDot]
  | cons c rest =>
    rw [splitDot]
    by_cases hc : c = '.'
    · rw [if_pos hc]; simp
    · rw [if_neg hc]
      cases hsp : splitDot rest <;> simp

theorem joinDot_splitDot : ∀ l : Str, joinDot (splitDot l) = l := by
  intro l
  induction l with
  | nil => rfl
  | cons c rest ih =>
    rw [splitDot]
    by_cases hc : c = '.'
    · subst hc
      rw [if_pos rfl]
      cases hsp : splitDot rest with
      | nil => exact absurd hsp (splitDot_ne_nil rest)
      | cons p ps =>
        rw [hsp] at ih
        show ([] : Str) ++ '.' :: joinDot (p :: ps) = '.' :: rest
        rw [List.nil_append, ih]
    · rw [if_neg hc]
      cases hsp : splitDot rest with
      | nil => exact absurd hsp (splitDot_ne_nil rest)
      | cons p ps =>
        rw [hsp] at ih
        cases ps with
        | nil =>
          show (c :: p : Str) = c :: rest
          have hp : (p : Str) = rest := ih
          rw [hp]
        | cons q qs =>
          show (c :: p) ++ '.' :: joinDot (q :: qs) = c :: rest
          rw [List.cons_append]
          have hp : (p : Str) ++ '.' :: joinDot (q :: qs) = rest := ih
          rw [hp]

theorem matchSeg_some : ∀ (l r : Str), matchSeg l = some r →
    ∃ seg, l = seg ++ r ∧ specSegOk seg = true := by
  intro l r h
  cases l with
  | nil => cases h
  | cons c rest =>
    rw [matchSeg] at h
    by_cases h0 : c = '0'
    · rw [if_pos h0] at h
      cases h
      subst h0
      exact ⟨['0'], rfl, by decide⟩
    · rw [if_neg h0] at h
      by_cases hd : isDigitB c = true
      · rw [if_pos hd] at h
        cases h
        refine ⟨c :: rest.takeWhile isDigitB, ?_, ?_⟩
        · rw [List.cons_append, List.takeWhile_append_dropWhile]
        · rw [specSegOk, Bool.and_eq_true, Bool.and_eq_true]
          refine ⟨⟨rfl, ?_⟩, ?_⟩
          · refine List.all_eq_true.mpr ?_
            intro x hx
            rcases List.mem_cons.mp hx with rfl | hx'
            · exact hd
            · exact List.mem_takeWhile_imp hx'
          · rw [Bool.or_eq_true]
            refine Or.inr ?_
            simp [List.head?, h0]
      · rw [if_neg hd] at h
        cases h

theorem matchSeg_spec_prepend : ∀ (a r : Str), specSegOk a = true →
    (∀ c rs, r = c :: rs → isDigitB c = false) →
    matchSeg (a ++ r) = some r := by
  intro a r ha hr
  cases a with
  | nil => exact absurd rfl (specSegOk_ne_nil ha)
  | cons c t =>
    by_cases h0 : c = '0'
    · subst h0
      have hsing : ('0' :: t : Str) = ['0'] := by
        rw [specSegOk, Bool.and_eq_true, Bool.or_eq_true] at ha
        rcases ha.2 with hbeq | hhd
        · exact eq_of_beq hbeq
        · exfalso
          simp [List.head?] at hhd
      rw [hsing, List.cons_append, List.nil_append, matchSeg, if_pos rfl]
    · have hdig := specSegOk_all_digits ha c (List.mem_cons_self _ _)
      rw [List.cons_append, matchSeg, if_neg h0, if_pos hdig]
      rw [dropWhile_append_of_all _ _ _
        (fun x hx => specSegOk_all_digits ha x (List.mem_cons_of_mem _ hx))]
      rw [dropWhile_of_head_false _ _ hr]

theorem semverMatch_iff_specVersionOk (s : Str) :
    semverMatch s = true ↔ specVersionOk s = true := by
  constructor
  · intro h
    rw [semverMatch] at h
    split at h
    · next r1 heq1 =>
      split at h
      · next r2 heq2 =>
        split at h
        · next heq3 =>
          obtain ⟨a, ha_eq, ha_ok⟩ := matchSeg_some _ _ heq1
          obtain ⟨b, hb_eq, hb_ok⟩ := matchSeg_some _ _ heq2
          obtain ⟨c, hc_eq, hc_ok⟩ := matchSeg_some _ _ heq3
          rw [List.append_nil] at hc_eq
          subst hc_eq
          rw [specVersionOk, ha_eq, hb_eq,
            splitDot_append_dot a _ (specSegOk_no_dot ha_ok),
            splitDot_append_dot b _ (specSegOk_no_dot hb_ok),
            splitDot_no_dot _ (specSegOk_no_dot hc_ok)]
          simp [ha_ok, hb_ok, hc_ok]
        · simp at h
      · simp at h
    · simp at h
  · intro h
    rw [specVersionOk] at h
    split at h
    · next a b c heq =>
      rw [Bool.and_eq_true, Bool.and_eq_true] at h
      have hs : a ++ '.' :: (b ++ '.' :: c) = s := by
        have hj := joinDot_splitDot s
        rw [heq] at hj
        exact hj
      have hm1 : matchSeg (a ++ '.' :: (b ++ '.' :: c)) = some ('.' :: (b ++ '.' :: c)) :=
        matchSeg_spec_prepend a _ h.1.1 (by intro c' rs hcrs; cases hcrs; decide)
      have hm2 : matchSeg (b ++ '.' :: c) = some ('.' :: c) :=
        matchSeg_spec_prepend b _ h.1.2 (by intro c' rs hcrs; cases hcrs; decide)
      have hm3 : matchSeg c = some [] := by
        have hm := matchSeg_spec_prepend c [] h.2 (by intro c' rs hcrs; cases hcrs)
        rw [List.append_nil] at hm
        exact hm
      rw [← hs]
      simp [semverMatch, hm1, hm2, hm3]
    · simp at h

theorem Version_new_eq (s : Str) : Version.new s =
    if semverMatch s then .ok (Version.mk s) else .error (.invalidVersion s) := by
  rw [Version.new, Version.validate, validate_version_format]
  by_cases hm : semverMatch s = true
  · rw [if_pos hm, if_pos hm]
  · rw [if_neg hm, if_neg hm]

/-- C2: version parsing accepts exactly the strings made of three
dot-separated canonical decimal integers — digits only, no leading plus
sign, no leading zeros beyond `"0"` itself — and every other input fails
with `InvalidVersion` carrying that input string. -/
theorem C2_version_parse_exact :
    ∀ s : Str,
      (Version.new s = .ok (Version.mk s) ↔ specVersionOk s = true)
      ∧ (specVersionOk s = false → Version.new s = .error (.invalidVersion s)) := by
  intro s
  have hnew := Version_new_eq s
  constructor
  · constructor
    · intro h
      rw [hnew] at h
      by_cases hm : semverMatch s = true
      · exact (semverMatch_iff_specVersionOk s).mp hm
      · rw [if_neg hm] at h
        cases h
    · intro h
      rw [hnew, if_pos ((semverMatch_iff_specVersionOk s).mpr h)]
  · intro h
    have hm : ¬(semverMatch s = true) := fun hsm =>
      by rw [(semverMatch_iff_specVersionOk s).mp hsm] at h; cases h
    rw [hnew, if_neg hm]

/-- Witness for C2 at a concrete input: `"1.2"` has only two segments,
so parsing fails with `InvalidVersion "1.2"`. -/
theorem C2_version_parse_exact_witness :
    specVersionOk "1.2".data = false ∧
      Version.new "1.2".data = .error (.invalidVersion "1.2".data) :=
  ⟨by decide, (C2_version_parse_exact "1.2".data).2 (by decide)⟩

/-! ### Decimal rendering of naturals -/

theorem natDigitsF_fuel_irrelevant :
    ∀ n f g, n < f → n < g → natDigitsF f n = natDigitsF g n := by
  intro n
  induction n using Nat.strong_induction_on with
  | _ n ih =>
    intro f g hf hg
    cases f with
    | zero => omega
    | succ f' =>
      cases g with
      | zero => omega
      | succ g' =>
        rw [natDigitsF, natDigitsF]
        by_cases h10 : n < 10
        · rw [if_pos h10, if_pos h10]
        · rw [if_neg h10, if_neg h10]
          have hdiv : n / 10 < n := Nat.div_lt_self (by omega) (by omega)
          rw [ih (n / 10) hdiv f' g' (by omega) (by omega)]

theorem natDigits_unfold (n : Nat) :
    natDigits n = if n < 10 then [digitChar n]
      else natDigits (n / 10) ++ [digitChar (n % 10)] := by
  rw [natDigits, natDigitsF]
  by_cases h10 : n < 10
  · rw [if_pos h10, if_pos h10]
  · rw [if_neg h10, if_neg h10, natDigits]
    have hdiv : n / 10 < n := Nat.div_lt_self (by omega) (by omega)
    rw [natDigitsF_fuel_irrelevant (n / 10) n (n / 10 + 1) (by omega) (by omega)]

theorem isDigitB_digitChar (n : Nat) : isDigitB (digitChar n) = true := by
  rcases n with _|_|_|_|_|_|_|_|_|m
  · decide
  · decide
  · decide
  · decide
  · decide
  · decide
  · decide
  · decide
  · decide
  · show isDigitB '9' = true
    decide

theorem digitVal_digitChar {n : Nat} (h : n < 10) : digitVal (digitChar n) = n := by
  interval_cases n <;> decide

theorem natDigits_ne_nil (n : Nat) : natDigits n ≠ [] := by
  rw [natDigits_unfold]
  split
  · simp
  · simp

theorem natDigits_all_digits (n : Nat) : ∀ c ∈ natDigits n, isDigitB c = true := by
  induction n using Nat.strong_induction_on with
  | _ n ih =>
    rw [natDigits_unfold]
    split
    · intro c hc
      rcases List.mem_singleton.mp hc with rfl
      exact isDigitB_digitChar n
    · next h10 =>
      intro c hc
      rcases List.mem_append.mp hc with hc1 | hc2
      · exact ih (n / 10) (Nat.div_lt_self (by omega) (by omega)) c hc1
      · rcases List.mem_singleton.mp hc2 with rfl
        exact isDigitB_digitChar _

theorem digitsVal_concat (l : Str) (c : Char) :
    digitsVal (l ++ [c]) = digitsVal l * 10 + digitVal c := by
  rw [digitsVal, digitsVal, List.foldl_append]
  rfl

theorem digitsVal_natDigits (n : Nat) : digitsVal (natDigits n) = n := by
  induction n using Nat.strong_induction_on with
  | _ n ih =>
    rw [natDigits_unfold]
    split
    · next h10 =>
      show digitsVal [digitChar n] = n
      have hone : digitsVal [digitChar n] = digitVal (digitChar n) := by
        show 0 * 10 + digitVal (digitChar n) = digitVal (digitChar n)
        omega
      rw [hone, digitVal_digitChar h10]
    · next h10 =>
      rw [digitsVal_concat, ih (n / 10) (Nat.div_lt_self (by omega) (by omega)),
        digitVal_digitChar (Nat.mod_lt _ (by omega))]
      omega

theorem natDigits_head_ne_zero : ∀ n : Nat, n ≠ 0 → (natDigits n).head? ≠ some '0' := by
  intro n
  induction n using Nat.strong_induction_on with
  | _ n ih =>
    intro hn
    rw [natDigits_unfold]
    split
    · next h10 =>
      interval_cases n <;> simp_all <;> decide
    · next h10 =>
      cases hnd : natDigits (n / 10) with
      | nil => exact absurd hnd (natDigits_ne_nil _)
      | cons c t =>
        have hih := ih (n / 10) (Nat.div_lt_self (by omega) (by omega)) (by omega)
        rw [hnd] at hih
        rw [List.cons_append]
        simpa [List.head?] using hih

theorem specSegOk_natDigits (n : Nat) : specSegOk (natDigits n) = true := by
  rw [specSegOk, Bool.and_eq_true, Bool.and_eq_true, Bool.or_eq_true]
  refine ⟨⟨?_, List.all_eq_true.mpr (fun x hx => natDigits_all_digits n x hx)⟩, ?_⟩
  · cases hnd : natDigits n with
    | nil => exact absurd hnd (natDigits_ne_nil n)
    | cons c t => rfl
  · by_cases h0 : n = 0
    · subst h0
      left
      rfl
    · right
      have := natDigits_head_ne_zero n h0
      cases hnd : natDigits n with
      | nil => exact absurd hnd (natDigits_ne_nil n)
      | cons c t =>
        rw [hnd] at this
        simpa [List.head?] using this

theorem natDigits_no_dot (n : Nat) : '.' ∉ natDigits n := by
  intro hm
  have := natDigits_all_digits n '.' hm
  simp [isDigitB] at this

theorem parseU32_natDigits {n : Nat} (h : n < 4294967296) :
    parseU32 (natDigits n) = some n := by
  cases hnd : natDigits n with
  | nil => exact absurd hnd (natDigits_ne_nil n)
  | cons c t =>
    have hcdig : isDigitB c = true :=
      natDigits_all_digits n c (by rw [hnd]; exact List.mem_cons_self _ _)
    have hcne : ¬(c = '+') := by
      intro hceq
      rw [hceq] at hcdig
      simp [isDigitB] at hcdig
    have hall : ((c :: t : Str).all isDigitB) = true :=
      List.all_eq_true.mpr (fun x hx => natDigits_all_digits n x (by rw [hnd]; exact hx))
    have hval : digitsVal (c :: t) = n := by rw [← hnd, digitsVal_natDigits]
    show (let t' : Str := if c = '+' then t else c :: t
      if t'.isEmpty then none
      else if t'.all isDigitB then
        if digitsVal t' < 4294967296 then some (digitsVal t') else none
      else none) = some n
    rw [if_neg hcne]
    show (if (c :: t : Str).isEmpty then none
      else if ((c :: t : Str).all isDigitB) then
        if digitsVal (c :: t) < 4294967296 then some (digitsVal (c :: t)) else none
      else none) = some n
    rw [if_neg (by simp : ¬((c :: t : Str).isEmpty = true)), hall, if_pos rfl, hval, if_pos h]

theorem splitDot_tripleStr (a b c : Nat) :
    splitDot (tripleStr a b c) = [natDigits a, natDigits b, natDigits c] := by
  rw [tripleStr, splitDot_append_dot _ _ (natDigits_no_dot a),
    splitDot_append_dot _ _ (natDigits_no_dot b), splitDot_no_dot _ (natDigits_no_dot c)]

theorem specVersionOk_tripleStr (a b c : Nat) : specVersionOk (tripleStr a b c) = true := by
  rw [specVersionOk, splitDot_tripleStr]
  simp [specSegOk_natDigits]

theorem semverMatch_tripleStr (a b c : Nat) : semverMatch (tripleStr a b c) = true :=
  (semverMatch_iff_specVersionOk _).mpr (specVersionOk_tripleStr a b c)

theorem parse_components_tripleStr {a b c : Nat}
    (ha : a < 4294967296) (hb : b < 4294967296) (hc : c < 4294967296) :
    Version.parse_components (Version.mk (tripleStr a b c)) = .ok (a, b, c) := by
  simp only [Version.parse_components, splitDot_tripleStr, parseU32_natDigits ha,
    parseU32_natDigits hb, parseU32_natDigits hc]

/-- C7: display and parse round-trip — a valid version value renders to
its stored string and parses back to an equal value, and for every
component triple of `u32` values, formatting `"{major}.{minor}.{patch}"`
and parsing recovers exactly that triple. -/
theorem C7_roundtrip :
    (∀ v : Version, semverMatch v.version = true →
      Version.new (Version.display v) = .ok v)
    ∧ (∀ major minor patch : Nat,
        major < 4294967296 → minor < 4294967296 → patch < 4294967296 →
        Version.from_parts major minor patch = .ok (Version.mk (tripleStr major minor patch))
        ∧ Version.parse_components (Version.mk (tripleStr major minor patch)) =
            .ok (major, minor, patch)) := by
  constructor
  · intro v hv
    rw [Version.display, Version_new_eq, if_pos hv]
  · intro major minor patch ha hb hc
    constructor
    · rw [Version.from_parts, Version_new_eq, if_pos (semverMatch_tripleStr major minor patch)]
    · exact parse_components_tripleStr ha hb hc

/-- Witness for C7 at concrete inputs: the version `"1.2.3"` and the
triple `(1, 2, 3)`. -/
theorem C7_roundtrip_witness :
    Version.new (Version.display (Version.mk "1.2.3".data)) = .ok (Version.mk "1.2.3".data)
    ∧ (Version.from_parts 1 2 3 = .ok (Version.mk (tripleStr 1 2 3))
       ∧ Version.parse_components (Version.mk (tripleStr 1 2 3)) = .ok (1, 2, 3)) :=
  ⟨C7_roundtrip.1 (Version.mk "1.2.3".data) (by decide),
   C7_roundtrip.2 1 2 3 (by decide) (by decide) (by decide)⟩

/-! ### Compatibility predicate -/

theorem tripleCmp_lt_iff (a b : Nat × Nat × Nat) :
    tripleCmp a b = .lt ↔
      (a.1 < b.1 ∨ (a.1 = b.1 ∧ (a.2.1 < b.2.1 ∨ (a.2.1 = b.2.1 ∧ a.2.2 < b.2.2)))) := by
  rw [tripleCmp]
  rcases Nat.lt_trichotomy a.1 b.1 with h1 | h1 | h1
  · rw [Nat.compare_eq_lt.mpr h1]
    simp only [Ordering.then]
    simp
    omega
  · rw [Nat.compare_eq_eq.mpr h1]
    simp only [Ordering.then]
    rcases Nat.lt_trichotomy a.2.1 b.2.1 with h2 | h2 | h2
    · rw [Nat.compare_eq_lt.mpr h2]
      simp only [Ordering.then]
      simp
      omega
    · rw [Nat.compare_eq_eq.mpr h2]
      simp only [Ordering.then]
      rcases Nat.lt_trichotomy a.2.2 b.2.2 with h3 | h3 | h3
      · rw [Nat.compare_eq_lt.mpr h3]
        simp
        omega
      · rw [Nat.compare_eq_eq.mpr h3]
        simp
        omega
      · rw [Nat.compare_eq_gt.mpr h3]
        simp
        omega
    · rw [Nat.compare_eq_gt.mpr h2]
      simp only [Ordering.then]
      simp
      omega
  · rw [Nat.compare_eq_gt.mpr h1]
    simp only [Ordering.then]
    simp
    omega

theorem tripleGe_iff (a b : Nat × Nat × Nat) : tripleGe a b = true ↔ specTripleGe a b := by
  rw [tripleGe]
  cases hcmp : tripleCmp a b with
  | lt =>
    have hlt := (tripleCmp_lt_iff a b).mp hcmp
    show (false = true) ↔ specTripleGe a b
    rw [specTripleGe]
    constructor
    · intro h; cases h
    · intro hsp; exfalso; omega
  | eq =>
    have hnlt : ¬(tripleCmp a b = .lt) := by rw [hcmp]; intro h; cases h
    have hnot : ¬(a.1 < b.1 ∨ (a.1 = b.1 ∧ (a.2.1 < b.2.1 ∨ (a.2.1 = b.2.1 ∧ a.2.2 < b.2.2)))) :=
      fun hq => hnlt ((tripleCmp_lt_iff a b).mpr hq)
    show (true = true) ↔ specTripleGe a b
    rw [specTripleGe]
    constructor
    · intro _
      omega
    · intro _
      rfl
  | gt =>
    have hnlt : ¬(tripleCmp a b = .lt) := by rw [hcmp]; intro h; cases h
    have hnot : ¬(a.1 < b.1 ∨ (a.1 = b.1 ∧ (a.2.1 < b.2.1 ∨ (a.2.1 = b.2.1 ∧ a.2.2 < b.2.2)))) :=
      fun hq => hnlt ((tripleCmp_lt_iff a b).mpr hq)
    show (true = true) ↔ specTripleGe a b
    rw [specTripleGe]
    constructor
    · intro _
      omega
    · intro _
      rfl

/-- C4 counterexample: the version string `"4294967296.0.0"` passes the
regex validation (so the value is valid), yet it is not compatible with
itself — its major component overflows `u32`, so the internal component
parse fails and `is_compatible_with` answers `false`; reflexivity on
every valid version fails. -/
theorem C4_not_reflexive_on_overflow :
    semverMatch "4294967296.0.0".data = true ∧
      Version.is_compatible_with (Version.mk "4294967296.0.0".data)
        (Version.mk "4294967296.0.0".data) = false :=
  ⟨by decide, by decide⟩

/-- C4 amended: for versions whose components parse as `u32` values,
`is_compatible_with` is true exactly when the majors agree and the left
components are lexicographically at least the right ones; it is
reflexive on such versions and false whenever the majors differ. -/
theorem C4_compatibility :
    (∀ a b : Version, ∀ ta tb : Nat × Nat × Nat,
      a.parse_components = .ok ta → b.parse_components = .ok tb →
      (a.is_compatible_with b = true ↔ ta.1 = tb.1 ∧ specTripleGe ta tb))
    ∧ (∀ v : Version, ∀ t : Nat × Nat × Nat,
        v.parse_components = .ok t → v.is_compatible_with v = true)
    ∧ (∀ a b : Version, ∀ ta tb : Nat × Nat × Nat,
        a.parse_components = .ok ta → b.parse_components = .ok tb →
        ta.1 ≠ tb.1 → a.is_compatible_with b = false) := by
  have hmain : ∀ a b : Version, ∀ ta tb : Nat × Nat × Nat,
      a.parse_components = .ok ta → b.parse_components = .ok tb →
      (a.is_compatible_with b = true ↔ ta.1 = tb.1 ∧ specTripleGe ta tb) := by
    intro a b ta tb hta htb
    rw [Version.is_compatible_with, hta, htb]
    show (ta.1 == tb.1 && tripleGe ta tb) = true ↔ _
    rw [Bool.and_eq_true, beq_iff_eq]
    constructor
    · rintro ⟨h1, h2⟩
      exact ⟨h1, (tripleGe_iff _ _).mp h2⟩
    · rintro ⟨h1, h2⟩
      exact ⟨h1, (tripleGe_iff _ _).mpr h2⟩
  refine ⟨hmain, ?_, ?_⟩
  · intro v t ht
    rw [hmain v v t t ht ht]
    refine ⟨rfl, ?_⟩
    rw [specTripleGe]
    omega
  · intro a b ta tb hta htb hne
    cases hic : a.is_compatible_with b with
    | false => rfl
    | true => exact absurd ((hmain a b ta tb hta htb).mp hic).1 hne

/-- Witness for C4 at concrete inputs: `1.2.4` satisfies `1.2.3`,
`1.0.0` satisfies itself, and `2.0.0` does not satisfy `1.2.3`. -/
theorem C4_compatibility_witness :
    Version.is_compatible_with (Version.mk "1.2.4".data) (Version.mk "1.2.3".data) = true
    ∧ Version.is_compatible_with (Version.mk "1.0.0".data) (Version.mk "1.0.0".data) = true
    ∧ Version.is_compatible_with (Version.mk "2.0.0".data) (Version.mk "1.2.3".data) = false :=
  ⟨(C4_compatibility.1 (Version.mk "1.2.4".data) (Version.mk "1.2.3".data)
      (1, 2, 4) (1, 2, 3) (by decide) (by decide)).mpr ⟨rfl, by decide⟩,
   C4_compatibility.2.1 (Version.mk "1.0.0".data) (1, 0, 0) (by decide),
   C4_compatibility.2.2 (Version.mk "2.0.0".data) (Version.mk "1.2.3".data)
     (2, 0, 0) (1, 2, 3) (by decide) (by decide) (by decide)⟩

/-! ### Manifest validation claims -/

/-- A manifest whose version string is invalid and whose scripts map
lacks the `"default"` key; reachable in the program by deserializing a
`manifest.json` with these fields, since deserialization does not
validate the version. -/
def manifestBadVersionNoDefault : ContainerManifest :=
  { mkManifest "app".data [] with version := Version.mk "x".data, scripts := [] }

/-- A manifest with an empty name. -/
def manifestEmptyName : ContainerManifest := mkManifest [] []

/-- A valid-name manifest with no `"default"` script entry. -/
def manifestNoDefault : ContainerManifest :=
  { mkManifest "app".data [] with scripts := [("run".data, "scripts/run.sh".data)] }

/-- C5 counterexample: a manifest with the well-formed name `"app"`, the
invalid version string `"x"` and no `"default"` script fails with
`InvalidVersion`, not `MissingDefaultScript` — the version check runs
before the default-script check. -/
theorem C5_invalid_version_before_default :
    ContainerManifest.validate manifestBadVersionNoDefault =
      .error (.invalidVersion "x".data)
    ∧ ContainerError.invalidVersion "x".data ≠ .missingDefaultScript :=
  ⟨by decide, by decide⟩

/-- C5 amended: an empty-name manifest always fails with
`ManifestValidation` (`"Container name cannot be empty"`); a manifest
whose name is non-empty and well-formed, whose version passes format
validation, and whose scripts map lacks `"default"` fails with exactly
`MissingDefaultScript`. -/
theorem C5_validate_order :
    (∀ m : ContainerManifest, m.name = [] →
      m.validate = .error (.manifestValidation "Container name cannot be empty".data))
    ∧ (∀ m : ContainerManifest, m.name ≠ [] → m.name.all isNameChar = true →
        m.version.validate = .ok () → containsKey m.scripts "default".data = false →
        m.validate = .error .missingDefaultScript) := by
  constructor
  · intro m hname
    rw [ContainerManifest.validate]
    have hempty : m.name.isEmpty = true := by rw [hname]; rfl
    rw [if_pos hempty]
  · intro m hne hchars hver hdef
    rw [ContainerManifest.validate]
    have hnotempty : ¬(m.name.isEmpty = true) := by
      cases hm : m.name with
      | nil => exact absurd hm hne
      | cons c t => simp [List.isEmpty]
    rw [if_neg hnotempty]
    have hch : ¬((!(m.name.all isNameChar)) = true) := by rw [hchars]; simp
    rw [if_neg hch, hver]
    dsimp only
    have hnd : (!(containsKey m.scripts "default".data)) = true := by rw [hdef]; rfl
    rw [if_pos hnd]

/-- Witness for C5 at concrete manifests: one with an empty name and one
well-formed manifest lacking the default script. -/
theorem C5_validate_order_witness :
    ContainerManifest.validate manifestEmptyName =
      .error (.manifestValidation "Container name cannot be empty".data)
    ∧ ContainerManifest.validate manifestNoDefault = .error .missingDefaultScript :=
  ⟨C5_validate_order.1 manifestEmptyName rfl,
   C5_validate_order.2 manifestNoDefault (by decide) (by decide) (by decide) (by decide)⟩

/-! ### Dependency validation lemmas -/

theorem validate_ok_validateDeps (m : ContainerManifest) (h : m.validate = .ok ()) :
    validateDeps m.dependencies = .ok () := by
  rw [ContainerManifest.validate] at h
  split at h
  · exact Except.noConfusion h
  · split at h
    · exact Except.noConfusion h
    · split at h
      · exact Except.noConfusion h
      · split at h
        · exact Except.noConfusion h
        · split at h
          · exact Except.noConfusion h
          · exact h

theorem validateDeps_ok_each :
    ∀ deps : List Dependency, validateDeps deps = .ok () →
      ∀ d ∈ deps, semverMatch d.version = true := by
  intro deps
  induction deps with
  | nil => intro _ d hd; cases hd
  | cons d0 rest ih =>
    intro h d hd
    rw [validateDeps] at h
    split at h
    · exact Except.noConfusion h
    · split at h
      · exact Except.noConfusion h
      · split at h
        · exact Except.noConfusion h
        · next val heq =>
          rcases List.mem_cons.mp hd with rfl | hdm
          · rw [Version_new_eq] at heq
            by_cases hm : semverMatch d.version = true
            · exact hm
            · rw [if_neg hm] at heq
              exact Except.noConfusion heq
          · exact ih h d hdm

theorem validate_single_none (dep : Dependency) (avail : List (Str × Version))
    (hlk : lookupA avail dep.name = none) :
    validate_single_dependency dep avail = .error (.packageNotFound dep.name) := by
  rw [validate_single_dependency, hlk]

theorem validate_single_some (dep : Dependency) (avail : List (Str × Version)) (pv : Version)
    (hm : semverMatch dep.version = true) (hlk : lookupA avail dep.name = some pv) :
    validate_single_dependency dep avail =
      if pv.is_compatible_with (Version.mk dep.version) then .ok ()
      else .error (.versionConflict (conflictMsg dep.name pv (Version.mk dep.version))) := by
  rw [validate_single_dependency, hlk]
  dsimp only
  rw [Version_new_eq, if_pos hm]

theorem validateDepsAvail_ok_iff :
    ∀ (deps : List Dependency) (avail : List (Str × Version)),
      (∀ d ∈ deps, semverMatch d.version = true) →
      (validateDepsAvail deps avail = .ok () ↔
        ∀ dep ∈ deps, ∃ pv, lookupA avail dep.name = some pv ∧
          pv.is_compatible_with (Version.mk dep.version) = true) := by
  intro deps
  induction deps with
  | nil =>
    intro avail _
    constructor
    · intro _ d hd
      cases hd
    · intro _
      rfl
  | cons d0 rest ih =>
    intro avail hall
    rw [validateDepsAvail]
    cases hlk : lookupA avail d0.name with
    | none =>
      rw [validate_single_none d0 avail hlk]
      constructor
      · intro h
        exact Except.noConfusion h
      · intro hfor
        obtain ⟨pv, hpv, _⟩ := hfor d0 (List.mem_cons_self _ _)
        rw [hlk] at hpv
        exact Option.noConfusion hpv
    | some pv =>
      rw [validate_single_some d0 avail pv (hall d0 (List.mem_cons_self _ _)) hlk]
      cases hcompat : pv.is_compatible_with (Version.mk d0.version) with
      | true =>
        rw [if_pos rfl]
        dsimp only
        rw [ih avail (fun d hd => hall d (List.mem_cons_of_mem _ hd))]
        constructor
        · intro hrest dep hdep
          rcases List.mem_cons.mp hdep with rfl | hdm
          · exact ⟨pv, hlk, hcompat⟩
          · exact hrest dep hdm
        · intro hfor dep hdep
          exact hfor dep (List.mem_cons_of_mem _ hdep)
      | false =>
        rw [if_neg (by simp)]
        constructor
        · intro h
          exact Except.noConfusion h
        · intro hfor
          exfalso
          obtain ⟨pv', hpv', hc'⟩ := hfor d0 (List.mem_cons_self _ _)
          rw [hlk] at hpv'
          injection hpv' with hh
          subst hh
          rw [hcompat] at hc'
          exact Bool.noConfusion hc'

theorem validateDepsAvail_err :
    ∀ (deps : List Dependency) (avail : List (Str × Version)) (e : ContainerError),
      (∀ d ∈ deps, semverMatch d.version = true) →
      validateDepsAvail deps avail = .error e →
      (∃ dep ∈ deps, lookupA avail dep.name = none ∧ e = .packageNotFound dep.name)
      ∨ (∃ dep ∈ deps, ∃ pv, lookupA avail dep.name = some pv ∧
          pv.is_compatible_with (Version.mk dep.version) = false ∧
          e = .versionConflict (conflictMsg dep.name pv (Version.mk dep.version))) := by
  intro deps
  induction deps with
  | nil =>
    intro avail e _ h
    exact Except.noConfusion h
  | cons d0 rest ih =>
    intro avail e hall h
    rw [validateDepsAvail] at h
    cases hlk : lookupA avail d0.name with
    | none =>
      rw [validate_single_none d0 avail hlk] at h
      injection h with he
      exact Or.inl ⟨d0, List.mem_cons_self _ _, hlk, he.symm⟩
    | some pv =>
      rw [validate_single_some d0 avail pv (hall d0 (List.mem_cons_self _ _)) hlk] at h
      cases hcompat : pv.is_compatible_with (Version.mk d0.version) with
      | true =>
        rw [hcompat, if_pos rfl] at h
        dsimp only at h
        rcases ih avail e (fun d hd => hall d (List.mem_cons_of_mem _ hd)) h with
          ⟨dep, hdep, hrest⟩ | ⟨dep, hdep, hrest⟩
        · exact Or.inl ⟨dep, List.mem_cons_of_mem _ hdep, hrest⟩
        · exact Or.inr ⟨dep, List.mem_cons_of_mem _ hdep, hrest⟩
      | false =>
        rw [hcompat, if_neg (by simp)] at h
        injection h with he
        exact Or.inr ⟨d0, List.mem_cons_self _ _, pv, hlk, hcompat, he.symm⟩

theorem validateDepsAvail_optional :
    ∀ (deps : List Dependency) (avail : List (Str × Version)) (f : Dependency → Bool),
      validateDepsAvail (deps.map (fun d => { d with optional := f d })) avail =
        validateDepsAvail deps avail := by
  intro deps
  induction deps with
  | nil => intro avail f; rfl
  | cons d0 rest ih =>
    intro avail f
    rw [List.map_cons, validateDepsAvail, validateDepsAvail]
    have hsingle : validate_single_dependency { d0 with optional := f d0 } avail =
        validate_single_dependency d0 avail := rfl
    rw [hsingle, ih avail f]

theorem validateDepsAvail_ne_invalid :
    ∀ (deps : List Dependency) (avail : List (Str × Version)) (s : Str),
      (∀ d ∈ deps, semverMatch d.version = true) →
      validateDepsAvail deps avail ≠ .error (.invalidVersion s) := by
  intro deps avail s hall h
  rcases validateDepsAvail_err deps avail _ hall h with
    ⟨dep, _, _, he⟩ | ⟨dep, _, pv, _, _, he⟩
  · exact ContainerError.noConfusion he
  · exact ContainerError.noConfusion he

/-! ### Claims about dependency validation and runtime transitions -/

/-- A container declaring one dependency on package `pkg` at `1.0.0`. -/
def cPkg : Container := mkContainer "app".data ["pkg".data]

/-- An available-package map offering `pkg` at version `1.2.0`. -/
def availPkg : List (Str × Version) := [("pkg".data, Version.mk "1.2.0".data)]

/-- C6: for containers with validated manifests, `validate_dependencies`
checks every dependency — absence of the name yields `PackageNotFound`,
an incompatible available version yields `VersionConflict` with the
descriptive message, success happens exactly when every dependency is
present and compatible, and the `optional` flag never changes the
outcome. -/
theorem C6_validate_dependencies :
    (∀ (c : Container) (avail : List (Str × Version)),
      c.manifest.validate = .ok () →
      (validate_dependencies c avail = .ok () ↔
        ∀ dep ∈ c.manifest.dependencies, ∃ pv, lookupA avail dep.name = some pv ∧
          pv.is_compatible_with (Version.mk dep.version) = true))
    ∧ (∀ (c : Container) (avail : List (Str × Version)) (e : ContainerError),
        c.manifest.validate = .ok () →
        validate_dependencies c avail = .error e →
        (∃ dep ∈ c.manifest.dependencies,
          lookupA avail dep.name = none ∧ e = .packageNotFound dep.name)
        ∨ (∃ dep ∈ c.manifest.dependencies, ∃ pv, lookupA avail dep.name = some pv ∧
            pv.is_compatible_with (Version.mk dep.version) = false ∧
            e = .versionConflict (conflictMsg dep.name pv (Version.mk dep.version))))
    ∧ (∀ (deps : List Dependency) (avail : List (Str × Version)) (f : Dependency → Bool),
        validateDepsAvail (deps.map (fun d => { d with optional := f d })) avail =
          validateDepsAvail deps avail) := by
  refine ⟨?_, ?_, validateDepsAvail_optional⟩
  · intro c avail hv
    exact validateDepsAvail_ok_iff c.manifest.dependencies avail
      (validateDeps_ok_each _ (validate_ok_validateDeps _ hv))
  · intro c avail e hv h
    exact validateDepsAvail_err c.manifest.dependencies avail e
      (validateDeps_ok_each _ (validate_ok_validateDeps _ hv)) h

/-- Witness for C6 at concrete inputs: `pkg` available at `1.2.0`
satisfies the requirement `1.0.0`. -/
theorem C6_validate_dependencies_witness :
    validate_dependencies cPkg availPkg = .ok () :=
  (C6_validate_dependencies.1 cPkg availPkg (by decide)).mpr (by
    intro dep hdep
    rcases List.mem_singleton.mp hdep with rfl
    exact ⟨Version.mk "1.2.0".data, by decide, by decide⟩)

/-- C8: `mark_stopped` sets the status to `Stopped`, clears the pid,
records the exit code and the stop timestamp, and leaves every other
field of the container unchanged. -/
theorem C8_mark_stopped_frame (c : Container) (code : Int) (now : Nat) :
    (c.mark_stopped code now).runtime.status = .stopped
    ∧ (c.mark_stopped code now).runtime.pid = none
    ∧ (c.mark_stopped code now).runtime.exit_code = some code
    ∧ (c.mark_stopped code now).runtime.stopped_at = some now
    ∧ (c.mark_stopped code now).runtime.id = c.runtime.id
    ∧ (c.mark_stopped code now).runtime.started_at = c.runtime.started_at
    ∧ (c.mark_stopped code now).runtime.errors = c.runtime.errors
    ∧ (c.mark_stopped code now).manifest = c.manifest
    ∧ (c.mark_stopped code now).path = c.path
    ∧ (c.mark_stopped code now).installed_at = c.installed_at
    ∧ (c.mark_stopped code now).last_accessed = c.last_accessed :=
  ⟨rfl, rfl, rfl, rfl, rfl, rfl, rfl, rfl, rfl, rfl, rfl⟩

/-- C9: once a manifest has passed validation, `validate_dependencies`
can never fail with `InvalidVersion` — every dependency version string
already parses. -/
theorem C9_no_invalid_version :
    ∀ (c : Container) (avail : List (Str × Version)) (s : Str),
      c.manifest.validate = .ok () →
      validate_dependencies c avail ≠ .error (.invalidVersion s) := by
  intro c avail s hv
  exact validateDepsAvail_ne_invalid c.manifest.dependencies avail s
    (validateDeps_ok_each _ (validate_ok_validateDeps _ hv))

/-- Witness for C9 at a concrete input: a validated container with one
dependency, with no packages available. -/
theorem C9_no_invalid_version_witness :
    validate_dependencies cPkg [] ≠ .error (.invalidVersion "x".data) :=
  C9_no_invalid_version cPkg [] "x".data (by decide)

end Wrappy
